import Mathlib

/-!
Verification of the TimeMaster task lifecycle logic.

The embedded code is the in-memory ("local fallback") implementation of the
task operations in src/src/composables/useTasks.js, which is the complete
lifecycle implementation present in the repository, together with the
progress-percentage computation of src/src/components/TaskCard.vue.

Modelling choices:
- JavaScript ISO-8601 timestamp strings compared with localeCompare form a
  linear order; they are modelled as natural numbers, and each mutating
  operation takes the current clock value as an explicit argument
  (the source calls new Date().toISOString() at each mutation).
- Task ids (strings in the source) are modelled as natural numbers.
- JavaScript Array.prototype.sort is stable (ECMAScript 2019); the
  sortTasks function is modelled as a stable insertion sort with the same
  comparator, descending by updatedAt.
- The payload shapes are those produced by the only caller of the update
  path, AddTaskDialog.vue handleSave: keys id, name, description, type,
  target, repeat, dateRange.  Note that normalizeTask reads the keys
  repeatRule, startDate and endDate, which the payload does not carry, so
  in local mode an edit never changes those fields and a create leaves
  them at their defaults; the model reflects this.
-/

namespace TimeMaster

/-- Task kind: the `type` field of a task, one of "once", "cycle",
"long_term". -/
inductive TaskType where
  | once
  | cycle
  | longTerm
deriving DecidableEq, Repr

/-- Task status: one of "active", "completed", "archived". -/
inductive TaskStatus where
  | active
  | completed
  | archived
deriving DecidableEq, Repr

/-- Repeat rule for cyclic tasks: "daily", "weekly" or "monthly". -/
inductive RepeatRule where
  | daily
  | weekly
  | monthly
deriving DecidableEq, Repr

/-- A task record, as produced by normalizeTask in useTasks.js. -/
structure Task where
  id : Nat
  name : String
  description : String
  type : TaskType
  progress : Nat
  target : Nat
  repeatRule : Option RepeatRule
  startDate : Option String
  endDate : Option String
  status : TaskStatus
  createdAt : Nat
  updatedAt : Nat
deriving DecidableEq, Repr

/-- Payload sent by AddTaskDialog.vue handleSave in create mode (the
fields that reach the stored record; the `repeat` and `dateRange` keys are
ignored by normalizeTask, which reads `repeatRule`, `startDate`,
`endDate`). -/
structure CreatePayload where
  name : String
  description : String
  type : TaskType
  target : Nat
deriving DecidableEq, Repr

/-- Payload sent by AddTaskDialog.vue handleSave in edit mode (the fields
that reach the stored record through the spread merge in updateTask). -/
structure EditPayload where
  id : Nat
  name : String
  description : String
  type : TaskType
  target : Nat
deriving DecidableEq, Repr

/-- Stable insertion of a task into a list that is sorted by updatedAt
descending: the task goes after every already-present task whose
updatedAt is greater than or equal to its own, matching the stable
ECMAScript sort with comparator (a, b) => b.updatedAt.localeCompare(a.updatedAt). -/
def insertTask (t : Task) : List Task → List Task
  | [] => [t]
  | u :: us =>
      if u.updatedAt ≤ t.updatedAt then t :: u :: us else u :: insertTask t us

/-- sortTasks from useTasks.js: stable sort of the task list by updatedAt
descending. -/
def sortTasks (l : List Task) : List Task :=
  l.foldr insertTask []

/-- Replace the first task with the given id (the one findIndex/find
locate) by applying f to it, leaving every other record untouched. -/
def updateById (l : List Task) (id : Nat) (f : Task → Task) : List Task :=
  match l with
  | [] => []
  | t :: ts => if t.id = id then f t :: ts else t :: updateById ts id f

/-- The record built by addTask in local mode:
normalizeTask({...payload, id}) with a fresh id and the current time.
progress defaults to 0, status to "active"; repeatRule, startDate and
endDate stay at their defaults because the payload carries the keys
`repeat` and `dateRange` instead. -/
def createTask (p : CreatePayload) (id now : Nat) : Task :=
  { id := id
    name := p.name
    description := p.description
    type := p.type
    progress := 0
    target := p.target
    repeatRule := none
    startDate := none
    endDate := none
    status := TaskStatus.active
    createdAt := now
    updatedAt := now }

/-- addTask in local mode: unshift the normalized record, then sortTasks. -/
def addTask (p : CreatePayload) (id now : Nat) (s : List Task) : List Task :=
  sortTasks (createTask p id now :: s)

/-- The record replacing an existing task t under updateTask in local
mode: normalizeTask({...t, ...payload, updatedAt: now}).  The payload
overrides name, description, type and target; progress, status,
repeatRule, startDate, endDate and createdAt come from the existing
record (the payload has no such keys). -/
def editStep (p : EditPayload) (now : Nat) (t : Task) : Task :=
  { t with
    name := p.name
    description := p.description
    type := p.type
    target := p.target
    updatedAt := now }

/-- updateTask in local mode: if a task with the payload id exists,
splice in the merged record and sortTasks; otherwise return null and
leave the list unchanged. -/
def updateTask (p : EditPayload) (now : Nat) (s : List Task) : List Task :=
  match s.find? (fun t => t.id == p.id) with
  | none => s
  | some _ => sortTasks (updateById s p.id (editStep p now))

/-- deleteTask in local mode: tasks = tasks.filter(task => task.id !== id).
No error is possible and no sort is performed. -/
def deleteTask (id : Nat) (s : List Task) : List Task :=
  s.filter (fun t => t.id != id)

/-- The in-place mutation performed by increaseProgress when
progress < target: progress += 1; if the new progress has reached the
target and the status is not "archived", status becomes "completed";
updatedAt is refreshed. -/
def increaseStep (now : Nat) (t : Task) : Task :=
  { t with
    progress := t.progress + 1
    status :=
      if t.target ≤ t.progress + 1 ∧ t.status ≠ TaskStatus.archived then
        TaskStatus.completed
      else t.status
    updatedAt := now }

/-- increaseProgress in local mode: find the task; when absent return
null with no change; when progress < target apply the increment and
sortTasks; otherwise do nothing at all (no updatedAt refresh, no sort). -/
def increaseProgress (id now : Nat) (s : List Task) : List Task :=
  match s.find? (fun t => t.id == id) with
  | none => s
  | some t =>
      if t.progress < t.target then
        sortTasks (updateById s id (increaseStep now))
      else s

/-- The in-place mutation performed by archiveTask: status := "archived",
updatedAt refreshed.  No precondition on the current status is checked. -/
def archiveStep (now : Nat) (t : Task) : Task :=
  { t with status := TaskStatus.archived, updatedAt := now }

/-- archiveTask in local mode: find the task; when absent return null
with no change; otherwise archive it and sortTasks. -/
def archiveTask (id now : Nat) (s : List Task) : List Task :=
  match s.find? (fun t => t.id == id) with
  | none => s
  | some _ => sortTasks (updateById s id (archiveStep now))

/-- The in-place mutation performed by reopenTask: status := "active";
if the kind is cycle, progress := 0; updatedAt refreshed.  No
precondition on the current status is checked. -/
def reopenStep (now : Nat) (t : Task) : Task :=
  { t with
    status := TaskStatus.active
    progress := if t.type = TaskType.cycle then 0 else t.progress
    updatedAt := now }

/-- reopenTask in local mode: find the task; when absent return null
with no change; otherwise reopen it and sortTasks. -/
def reopenTask (id now : Nat) (s : List Task) : List Task :=
  match s.find? (fun t => t.id == id) with
  | none => s
  | some _ => sortTasks (updateById s id (reopenStep now))

/-- A command of the lifecycle surface, with the clock value (and for
create the fresh id) made explicit. -/
inductive Command where
  | create (p : CreatePayload) (id now : Nat)
  | edit (p : EditPayload) (now : Nat)
  | increase (id now : Nat)
  | archive (id now : Nat)
  | reopen (id now : Nat)
  | delete (id : Nat)
deriving DecidableEq, Repr

/-- Apply one command to the task list. -/
def applyCommand (c : Command) (s : List Task) : List Task :=
  match c with
  | Command.create p id now => addTask p id now s
  | Command.edit p now => updateTask p now s
  | Command.increase id now => increaseProgress id now s
  | Command.archive id now => archiveTask id now s
  | Command.reopen id now => reopenTask id now s
  | Command.delete id => deleteTask id s

/-- Run a command sequence from the empty initial store. -/
def runCommands (cs : List Command) : List Task :=
  cs.foldl (fun s c => applyCommand c s) []

/-- progressPercentage from TaskCard.vue:
Math.min(100, Math.round(progress / (target || 1) * 100)).  A target of 0
or an absent target is replaced by 1 before dividing; Math.round on a
non-negative rational a/b is (2a + b) / (2b) in integer arithmetic. -/
def progressPercentage (progress : Nat) (target : Option Nat) : Nat :=
  let t := match target with
    | none => 1
    | some 0 => 1
    | some n => n
  min 100 ((200 * progress + t) / (2 * t))

/-- The invariant claimed by the spec: every stored task has
progress ≤ target (progress is a natural number, so 0 ≤ progress holds by
construction). -/
def ProgressInv (s : List Task) : Prop :=
  ∀ t ∈ s, t.progress ≤ t.target

/-- The listing order maintained by sortTasks: updatedAt is nonincreasing
along the list. -/
def SortedByUpdated (s : List Task) : Prop :=
  s.Pairwise (fun a b => b.updatedAt ≤ a.updatedAt)

theorem insertTask_perm (t : Task) (l : List Task) :
    List.Perm (insertTask t l) (t :: l) := by
  induction l with
  | nil => simp [insertTask]
  | cons u us ih =>
      by_cases h : u.updatedAt ≤ t.updatedAt
      · simp [insertTask, h]
      · simp only [insertTask, h, if_false]
        exact List.Perm.trans (List.Perm.cons u ih) (List.Perm.swap t u us)

theorem sortTasks_perm (l : List Task) : List.Perm (sortTasks l) l := by
  induction l with
  | nil => simp [sortTasks]
  | cons t ts ih =>
      have h1 : sortTasks (t :: ts) = insertTask t (sortTasks ts) := rfl
      rw [h1]
      exact List.Perm.trans (insertTask_perm t (sortTasks ts)) (List.Perm.cons t ih)

theorem mem_sortTasks {t : Task} {l : List Task} :
    t ∈ sortTasks l ↔ t ∈ l :=
  (sortTasks_perm l).mem_iff

theorem insertTask_sorted {t : Task} {l : List Task}
    (h : SortedByUpdated l) : SortedByUpdated (insertTask t l) := by
  induction l with
  | nil => simp [insertTask, SortedByUpdated]
  | cons u us ih =>
      rw [SortedByUpdated, List.pairwise_cons] at h
      by_cases hle : u.updatedAt ≤ t.updatedAt
      · rw [SortedByUpdated]
        simp only [insertTask, hle, if_true]
        refine List.Pairwise.cons ?_ (List.Pairwise.cons h.1 h.2)
        intro v hv
        rw [List.mem_cons] at hv
        rcases hv with hv | hv
        · exact hv ▸ hle
        · exact Nat.le_trans (h.1 v hv) hle
      · rw [SortedByUpdated]
        simp only [insertTask, hle, if_false]
        refine List.Pairwise.cons ?_ (ih h.2)
        intro v hv
        have hv2 := (insertTask_perm t us).mem_iff.mp hv
        rw [List.mem_cons] at hv2
        rcases hv2 with hv2 | hv2
        · exact hv2 ▸ Nat.le_of_lt (Nat.lt_of_not_le hle)
        · exact h.1 v hv2

theorem sortTasks_sorted (l : List Task) : SortedByUpdated (sortTasks l) := by
  induction l with
  | nil => exact List.Pairwise.nil
  | cons t ts ih => exact insertTask_sorted ih

theorem insertTask_filter (t : Task) (l : List Task) (k : Nat) :
    (insertTask t l).filter (fun u => u.updatedAt == k) =
      if t.updatedAt = k then t :: l.filter (fun u => u.updatedAt == k)
      else l.filter (fun u => u.updatedAt == k) := by
  induction l with
  | nil =>
      by_cases h : t.updatedAt = k
      · rw [if_pos h]
        simp [insertTask, h]
      · rw [if_neg h]
        simp [insertTask, h]
  | cons u us ih =>
      by_cases hle : u.updatedAt ≤ t.updatedAt
      · simp only [insertTask, hle, if_true]
        by_cases h : t.updatedAt = k
        · rw [if_pos h]
          simp [List.filter_cons, h]
        · rw [if_neg h]
          simp [List.filter_cons, h]
      · have hlt : t.updatedAt < u.updatedAt := Nat.lt_of_not_le hle
        simp only [insertTask, hle, if_false]
        by_cases h : t.updatedAt = k
        · have hu : ¬ u.updatedAt = k := by
            intro hk
            exact absurd (hk ▸ h ▸ hlt) (Nat.lt_irrefl _)
          rw [if_pos h]
          rw [List.filter_cons_of_neg (by simpa using hu),
            List.filter_cons_of_neg (by simpa using hu), ih, if_pos h]
        · rw [if_neg h]
          by_cases hu : u.updatedAt = k
          · rw [List.filter_cons_of_pos (by simpa using hu),
              List.filter_cons_of_pos (by simpa using hu), ih, if_neg h]
          · rw [List.filter_cons_of_neg (by simpa using hu),
              List.filter_cons_of_neg (by simpa using hu), ih, if_neg h]

theorem sortTasks_stable (l : List Task) (k : Nat) :
    (sortTasks l).filter (fun u => u.updatedAt == k) =
      l.filter (fun u => u.updatedAt == k) := by
  induction l with
  | nil => rfl
  | cons t ts ih =>
      have h1 : sortTasks (t :: ts) = insertTask t (sortTasks ts) := rfl
      rw [h1, insertTask_filter]
      by_cases h : t.updatedAt = k
      · rw [if_pos h, List.filter_cons_of_pos (by simpa using h), ih]
      · rw [if_neg h, List.filter_cons_of_neg (by simpa using h), ih]

theorem updateById_of_find? {s : List Task} {id : Nat} {t : Task}
    (f : Task → Task) (h : s.find? (fun u => u.id == id) = some t) :
    f t ∈ updateById s id f := by
  induction s with
  | nil => simp [List.find?] at h
  | cons u us ih =>
      by_cases hid : u.id = id
      · have heq : u = t := by
          rw [List.find?_cons_of_pos _ (by simpa using hid)] at h
          exact Option.some_injective _ h
        subst heq
        simp [updateById, hid]
      · rw [List.find?_cons_of_neg _ (by simpa using hid)] at h
        simp only [updateById, hid, if_false, List.mem_cons]
        exact Or.inr (ih h)

theorem mem_updateById_of_find? {s : List Task} {id : Nat} {t : Task}
    {f : Task → Task} {v : Task}
    (h : s.find? (fun u => u.id == id) = some t)
    (hv : v ∈ updateById s id f) : v ∈ s ∨ v = f t := by
  induction s with
  | nil => simp [updateById] at hv
  | cons u us ih =>
      by_cases hid : u.id = id
      · have heq : u = t := by
          rw [List.find?_cons_of_pos _ (by simpa using hid)] at h
          exact Option.some_injective _ h
        subst heq
        simp only [updateById, hid, if_true, List.mem_cons] at hv
        rcases hv with hv | hv
        · exact Or.inr hv
        · exact Or.inl (List.mem_cons_of_mem u hv)
      · rw [List.find?_cons_of_neg _ (by simpa using hid)] at h
        simp only [updateById, hid, if_false, List.mem_cons] at hv
        rcases hv with hv | hv
        · exact Or.inl (hv ▸ List.mem_cons_self u us)
        · rcases ih h hv with hv | hv
          · exact Or.inl (List.mem_cons_of_mem u hv)
          · exact Or.inr hv

/-- Sample archived cyclic task (target reached, then archived), as in the
spec scenario for a weekly cycle. -/
def sampleCycle : Task :=
  { id := 1
    name := "weekly report"
    description := ""
    type := TaskType.cycle
    progress := 1
    target := 1
    repeatRule := some RepeatRule.weekly
    startDate := none
    endDate := none
    status := TaskStatus.archived
    createdAt := 0
    updatedAt := 0 }

/-- Sample active one-shot task with partial progress. -/
def sampleOnce : Task :=
  { id := 2
    name := "launch checklist"
    description := ""
    type := TaskType.once
    progress := 3
    target := 5
    repeatRule := none
    startDate := none
    endDate := none
    status := TaskStatus.active
    createdAt := 0
    updatedAt := 0 }

/-- The one-shot sample task after archiving. -/
def sampleOnceArchived : Task :=
  { sampleOnce with status := TaskStatus.archived }

/-- Sample completed task whose progress equals its target. -/
def sampleDone : Task :=
  { id := 3
    name := "study plan"
    description := ""
    type := TaskType.longTerm
    progress := 4
    target := 4
    repeatRule := none
    startDate := some "2025-01-01"
    endDate := some "2025-06-30"
    status := TaskStatus.completed
    createdAt := 0
    updatedAt := 0 }

/-- C1: for every existing task, reopenTask sets status to active and sets
progress to 0 exactly when the kind is cycle; for any other kind progress
is left unchanged.  The reopened record (reopenStep of the found task)
is stored, and the new store is, up to listing order, the old one with
that record replaced. -/
theorem reopen_resets_progress_iff_cycle
    (s : List Task) (id now : Nat) (t : Task)
    (h : s.find? (fun u => u.id == id) = some t) :
    reopenStep now t ∈ reopenTask id now s ∧
    List.Perm (reopenTask id now s) (updateById s id (reopenStep now)) ∧
    (reopenStep now t).status = TaskStatus.active ∧
    (t.type = TaskType.cycle → (reopenStep now t).progress = 0) ∧
    (t.type ≠ TaskType.cycle → (reopenStep now t).progress = t.progress) := by
  refine ⟨?_, ?_, ?_, ?_, ?_⟩
  · simp only [reopenTask, h]
    exact mem_sortTasks.mpr (updateById_of_find? _ h)
  · simp only [reopenTask, h]
    exact sortTasks_perm _
  · rfl
  · intro hc
    simp [reopenStep, hc]
  · intro hc
    simp [reopenStep, hc]

/-- Witness for C1: reopening the archived cycle sample resets its
progress to 0 and activates it; reopening the archived one-shot sample
keeps its progress at 3. -/
theorem reopen_resets_progress_iff_cycle_witness :
    (reopenStep 9 sampleCycle).progress = 0 ∧
    (reopenStep 9 sampleCycle).status = TaskStatus.active ∧
    (reopenStep 9 sampleOnceArchived).progress = 3 := by
  obtain ⟨_, _, hact, hcyc, _⟩ :=
    reopen_resets_progress_iff_cycle [sampleCycle] 1 9 sampleCycle (by decide)
  obtain ⟨_, _, _, _, hnc⟩ :=
    reopen_resets_progress_iff_cycle [sampleOnceArchived] 2 9 sampleOnceArchived
      (by decide)
  exact ⟨hcyc (by decide), hact, (hnc (by decide)).trans (by decide)⟩

/-- C6: once a non-archived task has progress = target, increaseProgress
leaves the whole store unchanged, any number of repeated calls is still
the identity, and in general the increase operation never pushes any
task's progress beyond its target. -/
theorem increase_idempotent_at_target
    (s : List Task) (id now : Nat) (t : Task)
    (h : s.find? (fun u => u.id == id) = some t)
    (hst : t.status ≠ TaskStatus.archived)
    (hpt : t.progress = t.target) :
    increaseProgress id now s = s ∧
    (∀ n : Nat, (fun l => increaseProgress id now l)^[n] s = s) ∧
    (∀ s2 : List Task, (∀ u ∈ s2, u.progress ≤ u.target) →
      ∀ id2 now2 : Nat, ∀ v ∈ increaseProgress id2 now2 s2,
        v.progress ≤ v.target) := by
  have hfix : increaseProgress id now s = s := by
    simp only [increaseProgress, h]
    rw [if_neg (by omega)]
  refine ⟨hfix, fun n => Function.iterate_fixed hfix n, ?_⟩
  intro s2 hInv id2 now2 v hv
  rw [increaseProgress] at hv
  cases hf : s2.find? (fun u => u.id == id2) with
  | none =>
      rw [hf] at hv
      exact hInv v hv
  | some t2 =>
      rw [hf] at hv
      have hv2 : v ∈ (if t2.progress < t2.target then
          sortTasks (updateById s2 id2 (increaseStep now2)) else s2) := hv
      by_cases hlt : t2.progress < t2.target
      · rw [if_pos hlt] at hv2
        rcases mem_updateById_of_find? hf (mem_sortTasks.mp hv2) with hv3 | hv3
        · exact hInv v hv3
        · subst hv3
          have := hInv t2 (List.mem_of_find?_eq_some hf)
          simp only [increaseStep]
          omega
      · rw [if_neg hlt] at hv2
        exact hInv v hv2

/-- Witness for C6: on the completed sample (progress = target = 4) a
call to increaseProgress returns the store unchanged, and so do five
iterated calls. -/
theorem increase_idempotent_at_target_witness :
    increaseProgress 3 9 [sampleDone] = [sampleDone] ∧
    (fun l => increaseProgress 3 9 l)^[5] [sampleDone] = [sampleDone] := by
  obtain ⟨h1, h2, _⟩ :=
    increase_idempotent_at_target [sampleDone] 3 9 sampleDone (by decide)
      (by decide) (by decide)
  exact ⟨h1, h2 5⟩

/-- C8: archiving an existing non-archived task stores a record whose
status is archived and whose updatedAt is the current time, with every
other field (id, name, description, kind, progress, target, repeat rule,
dates, createdAt) exactly preserved; the new store is, up to listing
order, the old one with that record replaced. -/
theorem archive_preserves_fields
    (s : List Task) (id now : Nat) (t : Task)
    (h : s.find? (fun u => u.id == id) = some t)
    (hst : t.status ≠ TaskStatus.archived) :
    archiveStep now t ∈ archiveTask id now s ∧
    List.Perm (archiveTask id now s) (updateById s id (archiveStep now)) ∧
    (archiveStep now t).status = TaskStatus.archived ∧
    (archiveStep now t).updatedAt = now ∧
    (archiveStep now t).id = t.id ∧
    (archiveStep now t).name = t.name ∧
    (archiveStep now t).description = t.description ∧
    (archiveStep now t).type = t.type ∧
    (archiveStep now t).progress = t.progress ∧
    (archiveStep now t).target = t.target ∧
    (archiveStep now t).repeatRule = t.repeatRule ∧
    (archiveStep now t).startDate = t.startDate ∧
    (archiveStep now t).endDate = t.endDate ∧
    (archiveStep now t).createdAt = t.createdAt := by
  refine ⟨?_, ?_, rfl, rfl, rfl, rfl, rfl, rfl, rfl, rfl, rfl, rfl, rfl, rfl⟩
  · simp only [archiveTask, h]
    exact mem_sortTasks.mpr (updateById_of_find? _ h)
  · simp only [archiveTask, h]
    exact sortTasks_perm _

/-- Witness for C8: archiving the active one-shot sample (progress 3 of
5) stores an archived record that keeps progress 3 and target 5. -/
theorem archive_preserves_fields_witness :
    archiveStep 9 sampleOnce ∈ archiveTask 2 9 [sampleOnce] ∧
    (archiveStep 9 sampleOnce).progress = sampleOnce.progress ∧
    (archiveStep 9 sampleOnce).status = TaskStatus.archived := by
  obtain ⟨hmem, _, hstat, _, _, _, _, _, hprog, _⟩ :=
    archive_preserves_fields [sampleOnce] 2 9 sampleOnce (by decide) (by decide)
  exact ⟨hmem, hprog, hstat⟩

/-- C10: the task-card percentage is always between 0 and 100, and the
divisor is never 0: a target of 0 or an absent target is replaced by 1
(so the value for those cases coincides with the value at target 1), and
any value above 100 is capped at exactly 100. -/
theorem progressPercentage_safe (p : Nat) (target : Option Nat) :
    progressPercentage p target ≤ 100 ∧
    0 ≤ progressPercentage p target ∧
    progressPercentage p (some 0) = progressPercentage p (some 1) ∧
    progressPercentage p none = progressPercentage p (some 1) ∧
    (100 ≤ p → progressPercentage p (some 1) = 100) := by
  refine ⟨min_le_left _ _, Nat.zero_le _, rfl, rfl, ?_⟩
  intro hp
  simp only [progressPercentage]
  have : 100 ≤ (200 * p + 1) / 2 := by omega
  omega

/-- Witness for C10: the cap and the zero-divisor replacement at concrete
inputs: progress 7 of target 2 shows 100, and a target of 0 with
progress 0 shows 0 rather than dividing by zero. -/
theorem progressPercentage_safe_witness :
    progressPercentage 7 (some 2) = 100 ∧
    progressPercentage 0 (some 0) = 0 ∧
    progressPercentage 200 (some 1) = 100 := by
  refine ⟨by decide, by decide, ?_⟩
  exact (progressPercentage_safe 200 (some 1)).2.2.2.2 (by decide)

theorem applyCommand_sorted (c : Command) (s : List Task)
    (h : SortedByUpdated s) : SortedByUpdated (applyCommand c s) := by
  cases c with
  | create p id now => exact sortTasks_sorted _
  | edit p now =>
      rw [applyCommand, updateTask]
      cases hf : s.find? (fun t => t.id == p.id) with
      | none => exact h
      | some t => exact sortTasks_sorted _
  | increase id now =>
      rw [applyCommand, increaseProgress]
      cases hf : s.find? (fun t => t.id == id) with
      | none => exact h
      | some t =>
          show SortedByUpdated (if t.progress < t.target then
            sortTasks (updateById s id (increaseStep now)) else s)
          by_cases hlt : t.progress < t.target
          · rw [if_pos hlt]
            exact sortTasks_sorted _
          · rw [if_neg hlt]
            exact h
  | archive id now =>
      rw [applyCommand, archiveTask]
      cases hf : s.find? (fun t => t.id == id) with
      | none => exact h
      | some t => exact sortTasks_sorted _
  | reopen id now =>
      rw [applyCommand, reopenTask]
      cases hf : s.find? (fun t => t.id == id) with
      | none => exact h
      | some t => exact sortTasks_sorted _
  | delete id =>
      exact List.Pairwise.sublist (List.filter_sublist s) h

theorem foldl_apply_sorted (cs : List Command) (s : List Task)
    (h : SortedByUpdated s) :
    SortedByUpdated (cs.foldl (fun l c => applyCommand c l) s) := by
  induction cs generalizing s with
  | nil => exact h
  | cons c cs ih => exact ih (applyCommand c s) (applyCommand_sorted c s h)

/-- C9: after any command sequence from the empty store, the task list is
ordered by updatedAt descending (most recently touched first), and the
sortTasks ordering is stable: tasks sharing an updatedAt value appear in
exactly their pre-sort relative order. -/
theorem listing_sorted_and_stable :
    (∀ cs : List Command, SortedByUpdated (runCommands cs)) ∧
    (∀ (l : List Task) (k : Nat),
      (sortTasks l).filter (fun u => u.updatedAt == k) =
        l.filter (fun u => u.updatedAt == k)) :=
  ⟨fun cs => foldl_apply_sorted cs [] List.Pairwise.nil, sortTasks_stable⟩

/-- Command sequence exhibiting the C2 violation: create a once-task with
target 2, reach progress 2 by two increases, then edit the target down
to 1 — updateTask does not clamp progress. -/
def invCommands : List Command :=
  [Command.create
      { name := "report", description := "", type := TaskType.once, target := 2 }
      1 1,
   Command.increase 1 2,
   Command.increase 1 3,
   Command.edit
      { id := 1, name := "report", description := "", type := TaskType.once,
        target := 1 }
      4]

/-- Counterexample to C2: after the command sequence invCommands the
store holds a task with target 1 and progress 2, so the claimed
invariant progress ≤ target does not survive every command. -/
theorem progressInv_counterexample :
    ∃ t ∈ runCommands invCommands, t.target < t.progress := by decide

/-- C2 as amended: create, increase-progress, archive, reopen and delete
all preserve 0 ≤ progress ≤ target, and an edit preserves it only under
the additional assumption that the payload target is at least the edited
task's current progress — updateTask performs no clamping. -/
theorem commands_preserve_progressInv (c : Command) (s : List Task)
    (hInv : ProgressInv s)
    (hEdit : ∀ p now, c = Command.edit p now →
      ∀ t ∈ s, t.id = p.id → t.progress ≤ p.target) :
    ProgressInv (applyCommand c s) := by
  cases c with
  | create p id now =>
      intro v hv
      rcases List.mem_cons.mp (mem_sortTasks.mp hv) with hv | hv
      · subst hv
        exact Nat.zero_le _
      · exact hInv v hv
  | edit p now =>
      intro v hv
      rw [applyCommand, updateTask] at hv
      cases hf : s.find? (fun u => u.id == p.id) with
      | none =>
          rw [hf] at hv
          exact hInv v hv
      | some t =>
          rw [hf] at hv
          rcases mem_updateById_of_find? hf (mem_sortTasks.mp hv) with hv2 | hv2
          · exact hInv v hv2
          · subst hv2
            have hid : t.id = p.id := by
              simpa using List.find?_some hf
            have := hEdit p now rfl t (List.mem_of_find?_eq_some hf) hid
            simpa [editStep] using this
  | increase id now =>
      intro v hv
      rw [applyCommand, increaseProgress] at hv
      cases hf : s.find? (fun u => u.id == id) with
      | none =>
          rw [hf] at hv
          exact hInv v hv
      | some t =>
          rw [hf] at hv
          have hv2 : v ∈ (if t.progress < t.target then
              sortTasks (updateById s id (increaseStep now)) else s) := hv
          by_cases hlt : t.progress < t.target
          · rw [if_pos hlt] at hv2
            rcases mem_updateById_of_find? hf (mem_sortTasks.mp hv2) with hv3 | hv3
            · exact hInv v hv3
            · subst hv3
              simp only [increaseStep]
              omega
          · rw [if_neg hlt] at hv2
            exact hInv v hv2
  | archive id now =>
      intro v hv
      rw [applyCommand, archiveTask] at hv
      cases hf : s.find? (fun u => u.id == id) with
      | none =>
          rw [hf] at hv
          exact hInv v hv
      | some t =>
          rw [hf] at hv
          rcases mem_updateById_of_find? hf (mem_sortTasks.mp hv) with hv2 | hv2
          · exact hInv v hv2
          · subst hv2
            simpa [archiveStep] using hInv t (List.mem_of_find?_eq_some hf)
  | reopen id now =>
      intro v hv
      rw [applyCommand, reopenTask] at hv
      cases hf : s.find? (fun u => u.id == id) with
      | none =>
          rw [hf] at hv
          exact hInv v hv
      | some t =>
          rw [hf] at hv
          rcases mem_updateById_of_find? hf (mem_sortTasks.mp hv) with hv2 | hv2
          · exact hInv v hv2
          · subst hv2
            have := hInv t (List.mem_of_find?_eq_some hf)
            simp only [reopenStep]
            by_cases hc : t.type = TaskType.cycle
            · simp [hc]
            · simpa [hc] using this
  | delete id =>
      intro v hv
      exact hInv v (List.mem_filter.mp hv).1

/-- Witness for the amended C2: an increase on the active one-shot sample
preserves the invariant (the edit side condition is vacuous for an
increase command). -/
theorem commands_preserve_progressInv_witness :
    ProgressInv (applyCommand (Command.increase 2 9) [sampleOnce]) :=
  commands_preserve_progressInv (Command.increase 2 9) [sampleOnce]
    (by intro t ht; rw [List.mem_singleton.mp ht]; decide)
    (fun p now hc => Command.noConfusion hc)

/-- Task for the C3 scenario: progress 5, active, target above progress. -/
def editDemoTask : Task :=
  { id := 1
    name := "report"
    description := ""
    type := TaskType.once
    progress := 5
    target := 8
    repeatRule := none
    startDate := none
    endDate := none
    status := TaskStatus.active
    createdAt := 0
    updatedAt := 0 }

/-- Edit payload for the C3 scenario: lower the target to 3, everything
else unchanged. -/
def editDemoPayload : EditPayload :=
  { id := 1, name := "report", description := "", type := TaskType.once,
    target := 3 }

/-- Counterexample to C3: editing the progress-5 task down to target 3
stores a record with progress still 5 and status still active — progress
is not clamped to the new target and the status is not recomputed to
completed. -/
theorem edit_clamp_counterexample :
    updateTask editDemoPayload 9 [editDemoTask] =
      [{ editDemoTask with target := 3, updatedAt := 9 }] ∧
    ¬ ((editStep editDemoPayload 9 editDemoTask).progress = 3 ∧
        (editStep editDemoPayload 9 editDemoTask).status =
          TaskStatus.completed) := by decide

/-- C3 as amended: if an edit lowers the target below the current
progress, the stored record keeps its previous progress and its previous
status (no clamping, no recomputation), takes the new target, and is
left with progress strictly above target. -/
theorem edit_lower_target_no_clamp
    (p : EditPayload) (now : Nat) (s : List Task) (t : Task)
    (h : s.find? (fun u => u.id == p.id) = some t)
    (hlow : p.target < t.progress) :
    editStep p now t ∈ updateTask p now s ∧
    (editStep p now t).progress = t.progress ∧
    (editStep p now t).status = t.status ∧
    (editStep p now t).target = p.target ∧
    (editStep p now t).target < (editStep p now t).progress := by
  refine ⟨?_, rfl, rfl, rfl, hlow⟩
  simp only [updateTask, h]
  exact mem_sortTasks.mpr (updateById_of_find? _ h)

/-- Witness for the amended C3: on the concrete progress-5 task edited
down to target 3, the stored record has progress above target. -/
theorem edit_lower_target_no_clamp_witness :
    editStep editDemoPayload 9 editDemoTask ∈
      updateTask editDemoPayload 9 [editDemoTask] ∧
    (editStep editDemoPayload 9 editDemoTask).target <
      (editStep editDemoPayload 9 editDemoTask).progress := by
  obtain ⟨hmem, _, _, _, hgap⟩ :=
    edit_lower_target_no_clamp editDemoPayload 9 [editDemoTask] editDemoTask
      (by decide) (by decide)
  exact ⟨hmem, hgap⟩

/-- Archived task whose progress has not reached its target, for the
illegal-transition scenarios. -/
def archivedPending : Task :=
  { id := 1
    name := "paused work"
    description := ""
    type := TaskType.once
    progress := 0
    target := 2
    repeatRule := none
    startDate := none
    endDate := none
    status := TaskStatus.archived
    createdAt := 0
    updatedAt := 0 }

/-- Counterexample to C4: increaseProgress on the archived task with
progress 0 of 2 does not fail — it stores a changed record with
progress 1 and a refreshed updatedAt, so the call neither raises a typed
error nor leaves the record as it was. -/
theorem illegal_transition_counterexample :
    increaseProgress 1 5 [archivedPending] =
      [{ archivedPending with progress := 1, updatedAt := 5 }] ∧
    ({ archivedPending with progress := 1, updatedAt := 5 } : Task) ≠
      archivedPending := by decide

/-- C4 as amended: none of the three calls is rejected — the operations
are total functions with no error path.  IncreaseProgress on an archived
task whose progress is below target increments its progress and leaves
it archived; Archive on an already-archived task changes nothing but
updatedAt; Reopen on a non-archived task simply stores an active record. -/
theorem no_illegal_transition_checks
    (s : List Task) (id now : Nat) (t : Task)
    (h : s.find? (fun u => u.id == id) = some t) :
    (t.status = TaskStatus.archived → t.progress < t.target →
      increaseStep now t ∈ increaseProgress id now s ∧
      (increaseStep now t).progress = t.progress + 1 ∧
      (increaseStep now t).status = TaskStatus.archived) ∧
    (t.status = TaskStatus.archived →
      archiveStep now t ∈ archiveTask id now s ∧
      archiveStep now t = { t with updatedAt := now }) ∧
    (t.status ≠ TaskStatus.archived →
      reopenStep now t ∈ reopenTask id now s ∧
      (reopenStep now t).status = TaskStatus.active) := by
  refine ⟨fun hst hlt => ⟨?_, rfl, ?_⟩, fun hst => ⟨?_, ?_⟩, fun hst => ⟨?_, rfl⟩⟩
  · simp only [increaseProgress, h]
    rw [if_pos hlt]
    exact mem_sortTasks.mpr (updateById_of_find? _ h)
  · simp [increaseStep, hst]
  · simp only [archiveTask, h]
    exact mem_sortTasks.mpr (updateById_of_find? _ h)
  · simp only [archiveStep, ← hst]
  · simp only [reopenTask, h]
    exact mem_sortTasks.mpr (updateById_of_find? _ h)

/-- Witness for the amended C4: the archived pending task is mutated by
increaseProgress, re-archiving the archived cycle sample only refreshes
updatedAt, and reopening the active one-shot sample yields an active
record. -/
theorem no_illegal_transition_checks_witness :
    increaseStep 5 archivedPending ∈ increaseProgress 1 5 [archivedPending] ∧
    archiveStep 5 sampleCycle = { sampleCycle with updatedAt := 5 } ∧
    (reopenStep 5 sampleOnce).status = TaskStatus.active := by
  obtain ⟨h1, _, _⟩ :=
    no_illegal_transition_checks [archivedPending] 1 5 archivedPending (by decide)
  obtain ⟨_, h2, _⟩ :=
    no_illegal_transition_checks [sampleCycle] 1 5 sampleCycle (by decide)
  obtain ⟨_, _, h3⟩ :=
    no_illegal_transition_checks [sampleOnce] 2 5 sampleOnce (by decide)
  exact ⟨(h1 (by decide) (by decide)).1, (h2 (by decide)).2, (h3 (by decide)).2⟩

/-- Active one-shot task used to demonstrate the silent kind change. -/
def kindDemoTask : Task :=
  { id := 1
    name := "note"
    description := ""
    type := TaskType.once
    progress := 0
    target := 2
    repeatRule := none
    startDate := none
    endDate := none
    status := TaskStatus.active
    createdAt := 0
    updatedAt := 0 }

/-- Edit payload identical to kindDemoTask except that it carries the
kind cycle instead of once. -/
def kindDemoPayload : EditPayload :=
  { id := 1, name := "note", description := "", type := TaskType.cycle,
    target := 2 }

/-- Counterexample to C5: an edit whose payload carries a different kind
does not fail — it stores a record whose kind has silently become the
payload's kind, so the record is not left unchanged. -/
theorem immutable_kind_counterexample :
    updateTask kindDemoPayload 9 [kindDemoTask] =
      [{ kindDemoTask with type := TaskType.cycle, updatedAt := 9 }] ∧
    ({ kindDemoTask with type := TaskType.cycle, updatedAt := 9 } : Task) ≠
      kindDemoTask := by decide

/-- C5 as amended: an edit whose payload carries a kind different from
the task's current kind silently changes the stored kind to the
payload's kind and refreshes updatedAt; no error path exists in
updateTask. -/
theorem edit_changes_kind_silently
    (p : EditPayload) (now : Nat) (s : List Task) (t : Task)
    (h : s.find? (fun u => u.id == p.id) = some t)
    (hk : p.type ≠ t.type) :
    editStep p now t ∈ updateTask p now s ∧
    (editStep p now t).type = p.type ∧
    (editStep p now t).type ≠ t.type ∧
    (editStep p now t).updatedAt = now := by
  refine ⟨?_, rfl, hk, rfl⟩
  simp only [updateTask, h]
  exact mem_sortTasks.mpr (updateById_of_find? _ h)

/-- Witness for the amended C5: the once-task edited with a cycle
payload stores a record whose kind is cycle. -/
theorem edit_changes_kind_silently_witness :
    editStep kindDemoPayload 9 kindDemoTask ∈
      updateTask kindDemoPayload 9 [kindDemoTask] ∧
    (editStep kindDemoPayload 9 kindDemoTask).type = kindDemoPayload.type := by
  obtain ⟨hmem, hty, _, _⟩ :=
    edit_changes_kind_silently kindDemoPayload 9 [kindDemoTask] kindDemoTask
      (by decide) (by decide)
  exact ⟨hmem, hty⟩

/-- Edit payload whose id (7) matches no task in the stores used with it. -/
def absentPayload : EditPayload :=
  { id := 7, name := "ghost", description := "", type := TaskType.once,
    target := 1 }

/-- Counterexample to C7: deleting an id absent from the store does not
fail — deleteTask is a total filter that returns the store unchanged —
and a second delete of an id already removed succeeds silently, returning
the same store instead of failing. -/
theorem delete_absent_counterexample :
    deleteTask 7 [kindDemoTask] = [kindDemoTask] ∧
    deleteTask 1 (deleteTask 1 [kindDemoTask]) =
      deleteTask 1 [kindDemoTask] := by decide

/-- C7 as amended: a command referencing an absent id causes no state
change — update, increase, archive and reopen return the store untouched
(the source returns null to the caller), and delete of an absent id
succeeds silently with the store unchanged; delete is idempotent, a
second delete of the same id succeeding with no further effect.  No
NotFound error is raised by any of them. -/
theorem absent_id_no_change (s : List Task) (now : Nat) (p : EditPayload)
    (h : s.find? (fun u => u.id == p.id) = none) :
    updateTask p now s = s ∧
    increaseProgress p.id now s = s ∧
    archiveTask p.id now s = s ∧
    reopenTask p.id now s = s ∧
    deleteTask p.id s = s ∧
    ∀ (id2 : Nat) (s2 : List Task),
      deleteTask id2 (deleteTask id2 s2) = deleteTask id2 s2 := by
  refine ⟨?_, ?_, ?_, ?_, ?_, ?_⟩
  · simp only [updateTask, h]
  · simp only [increaseProgress, h]
  · simp only [archiveTask, h]
  · simp only [reopenTask, h]
  · rw [deleteTask, List.filter_eq_self]
    intro t ht
    have := List.find?_eq_none.mp h t ht
    simpa using this
  · intro id2 s2
    simp only [deleteTask, List.filter_filter]
    simp

/-- Witness for the amended C7: with the ghost payload (id 7) against a
single-task store holding id 1, every operation returns the store
unchanged, and the double delete of id 1 equals the single delete. -/
theorem absent_id_no_change_witness :
    updateTask absentPayload 9 [kindDemoTask] = [kindDemoTask] ∧
    increaseProgress absentPayload.id 9 [kindDemoTask] = [kindDemoTask] ∧
    deleteTask absentPayload.id [kindDemoTask] = [kindDemoTask] := by
  obtain ⟨h1, h2, _, _, h5, _⟩ :=
    absent_id_no_change [kindDemoTask] 9 absentPayload (by decide)
  exact ⟨h1, h2, h5⟩

end TimeMaster
